import Mathlib

/-!
# BasicWebServerGo: an in-memory key-value store served over HTTP

A shallow embedding of `main.go`.  The `Server` value holds the two fields the
mutex protects (`data`, `requests`).  Every handler is written as the sequence
of primitive steps the Go source performs, in program order; each step updates
an execution record `Exec` carrying the server, the `http.ResponseWriter`, the
text printed to standard output and the trace of lock / unlock / output events.

Modelling conventions.
* `map[string]string` is an association list with pairwise distinct keys
  (`AList`); `len(m)` is the number of entries.  Go iterates a map in an
  unspecified order, so the copy loop of `getDataHandler` is a function of the
  visiting order and is shown not to depend on it.
* `requests` is a Go `int`: a two's-complement integer of 32 or 64 bits,
  depending on the target.  The size is a parameter `w : IntSize` of every
  function that reaches `s.requests++`, and the increment wraps around
  (`wrapInt`): from the largest value it goes to the smallest.
* The JSON codec and the HTTP transport are collaborators outside the
  repository.  A request carries the outcome of decoding its body; a response
  body is a list of chunks, where an encoded chunk records the value that was
  handed to `json.Encoder.Encode`.
* A handler holds the mutex for a single critical section and touches the
  shared fields only inside it, so running handlers one after another models
  every serialisation of a concurrent execution.
-/

namespace BasicWebServer

/-! ## Data model -/

/-- Go `map[string]string`. -/
abbrev GoMap := AList (fun _ : String => String)

/-- Go `len(m)` for a map. -/
def len (m : GoMap) : Nat := m.entries.length

/-- The two sizes Go allows for `int`. -/
inductive IntSize where
  | bits32
  | bits64
deriving DecidableEq, Repr

/-- Number of bits of an `int`. -/
def IntSize.bits : IntSize → Nat
  | IntSize.bits32 => 32
  | IntSize.bits64 => 64

/-- The largest `int` (`math.MaxInt`). -/
def intMax (w : IntSize) : Int := 2 ^ (w.bits - 1) - 1

/-- The smallest `int` (`math.MinInt`). -/
def intMin (w : IntSize) : Int := -(2 ^ (w.bits - 1))

/-- The `int` that a mathematical result is stored as: reduction modulo
`2 ^ bits` into the range from `intMin` to `intMax`. -/
def wrapInt (w : IntSize) (x : Int) : Int :=
  (x + 2 ^ (w.bits - 1)) % 2 ^ w.bits - 2 ^ (w.bits - 1)

/-- The fields of `type Server struct` that the mutex `mu` protects.  The mutex
itself appears as the `lock` / `unlock` events of a trace, the channel
`shutDownCh` as the wake-up `Wake.stop` of the worker.  The field `requests`
holds a Go `int`: every value the handlers store in it is wrapped by `wrapInt`. -/
structure Server where
  data : GoMap
  requests : Int

/-- Constructor `func NewServer() *Server`: empty map, zero counter. -/
def NewServer : Server := { data := ∅, requests := 0 }

/-- Go `type RequestPayload struct`. -/
structure RequestPayload where
  Key : String
  Value : String
deriving DecidableEq, Repr

/-! ## Response writer, standard output and the event trace -/

/-- One write to the response body. -/
inductive Chunk where
  /-- Plain text written with `fmt.Fprintf` / `fmt.Fprintln`. -/
  | text (s : String)
  /-- The map handed to `json.NewEncoder(w).Encode` by `getDataHandler`. -/
  | jsonMap (m : GoMap)
  /-- The `map[string]int` handed to `json.NewEncoder(w).Encode` by `statsHandler`. -/
  | jsonInts (m : List (String × Int))

/-- The observable state of an `http.ResponseWriter`. -/
structure ResponseWriter where
  header : List (String × String)
  status : Option Nat
  body : List Chunk

/-- The status code the client receives (`200` when none was written explicitly). -/
def ResponseWriter.code (w : ResponseWriter) : Nat := w.status.getD 200

/-- Events of one execution, in program order. -/
inductive Event where
  | lock
  | unlock
  | setHeader (k v : String)
  | writeHeader (code : Nat)
  | write (c : Chunk)
  | stdout (text : String)

/-- Execution record threaded through the steps of a handler. -/
structure Exec where
  srv : Server
  w : ResponseWriter
  out : List String
  trace : List Event

namespace Exec

/-- Entry of a handler: fresh response writer, nothing printed, empty trace. -/
def start (s : Server) : Exec :=
  { srv := s, w := { header := [], status := none, body := [] }, out := [], trace := [] }

/-- Statement `s.mu.Lock()`. -/
def lock (e : Exec) : Exec := { e with trace := e.trace ++ [Event.lock] }

/-- Statement `s.mu.Unlock()`. -/
def unlock (e : Exec) : Exec := { e with trace := e.trace ++ [Event.unlock] }

/-- Statement `s.data[k] = v`. -/
def assign (e : Exec) (k v : String) : Exec :=
  { e with srv := { e.srv with data := e.srv.data.insert k v } }

/-- Statement `delete(s.data, k)`. -/
def deleteKey (e : Exec) (k : String) : Exec :=
  { e with srv := { e.srv with data := e.srv.data.erase k } }

/-- Statement `s.requests++` on an `int` of size `w`; it wraps around on overflow. -/
def incRequests (w : IntSize) (e : Exec) : Exec :=
  { e with srv := { e.srv with requests := wrapInt w (e.srv.requests + 1) } }

/-- Calls of `fmt.Printf` / `fmt.Println`, which write to standard output. -/
def printf (e : Exec) (text : String) : Exec :=
  { e with out := e.out ++ [text], trace := e.trace ++ [Event.stdout text] }

/-- Call `w.Header().Set(k, v)`. -/
def setHeader (e : Exec) (k v : String) : Exec :=
  { e with
    w := { e.w with header := (k, v) :: e.w.header.filter (fun p => p.1 ≠ k) },
    trace := e.trace ++ [Event.setHeader k v] }

/-- Call `w.WriteHeader(code)`; only the first call takes effect. -/
def writeHeader (e : Exec) (code : Nat) : Exec :=
  { e with
    w := { e.w with status := some (e.w.status.getD code) },
    trace := e.trace ++ [Event.writeHeader code] }

/-- A write to the body; sends status `200` first when no header was written. -/
def write (e : Exec) (c : Chunk) : Exec :=
  { e with
    w := { e.w with status := some (e.w.status.getD 200), body := e.w.body ++ [c] },
    trace := e.trace ++ [Event.write c] }

/-- Call `http.Error(w, msg, code)`: plain-text headers, the status, the message and a
newline. -/
def httpError (e : Exec) (msg : String) (code : Nat) : Exec :=
  (((e.setHeader "Content-Type" "text/plain; charset=utf-8").setHeader
    "X-Content-Type-Options" "nosniff").writeHeader code).write (Chunk.text (msg ++ "\n"))

end Exec

/-! ## Handlers -/

/-- Method `postDataHandler` (`POST /data`).  `decoded` is the outcome of
`json.NewDecoder(r.Body).Decode(&payload)`: `none` when it returns an error. -/
def postDataHandler (w : IntSize) (s : Server) (decoded : Option RequestPayload) : Exec :=
  let e := Exec.start s
  match decoded with
  | none => e.httpError "Invalid JSON format" 400
  | some payload =>
    if payload.Key = "" then
      e.httpError "Key cannot be empty" 400
    else
      let e := e.lock
      let e := e.assign payload.Key payload.Value
      let e := e.incRequests w
      let e := e.unlock
      let e := e.printf
        ("Saved to map: Key=" ++ payload.Key ++ ", Value=" ++ payload.Value ++ "\n")
      let e := e.writeHeader 201
      e.write (Chunk.text ("Stored Key: " ++ payload.Key))

/-- The loop `for k, v := range s.data { dataCopy[k] = v }` on a fresh map,
visiting the entries in the given order. -/
def rangeCopy (order : List (Sigma (fun _ : String => String))) : GoMap :=
  order.foldl (fun dataCopy kv => dataCopy.insert kv.1 kv.2) ∅

/-- Method `getDataHandler` (`GET /data`).  `encodeErr` tells whether
`json.NewEncoder(w).Encode(dataCopy)` returns an error (nothing is written then). -/
def getDataHandler (s : Server) (encodeErr : Bool) : Exec :=
  let e := Exec.start s
  let e := e.lock
  let dataCopy := rangeCopy e.srv.data.entries
  let e := e.unlock
  let e := e.setHeader "Content-Type" "application/json"
  if encodeErr then
    e.httpError "Failed to encode response" 500
  else
    e.write (Chunk.jsonMap dataCopy)

/-- Method `deleteDataHandler` (`DELETE /data/{key}`); `key` is `r.PathValue("key")`.
The deferred `Unlock` runs when the handler returns. -/
def deleteDataHandler (w : IntSize) (s : Server) (key : String) : Exec :=
  let e := Exec.start s
  if key = "" then
    e.httpError "Key is required" 400
  else
    let e := e.lock
    if (e.srv.data.lookup key).isNone then
      let e := e.httpError "Key is not found" 404
      e.unlock
    else
      let e := e.deleteKey key
      let e := e.incRequests w
      let e := e.printf ("Key " ++ key ++ " was deleted\n")
      let e := e.writeHeader 200
      let e := e.write (Chunk.text ("Deleted Key: " ++ key))
      e.unlock

/-- Method `statsHandler` (`GET /stats`).  `encodeErr` tells whether
`json.NewEncoder(w).Encode(response)` returns an error.  The deferred `Unlock`
runs when the handler returns. -/
def statsHandler (s : Server) (encodeErr : Bool) : Exec :=
  let e := Exec.start s
  let e := e.lock
  let count := e.srv.requests
  let response : List (String × Int) := [("total_requests", count)]
  let e := e.setHeader "Content-Type" "application/json"
  if encodeErr then
    let e := e.httpError "Failed to encode stats" 500
    e.unlock
  else
    let e := e.write (Chunk.jsonInts response)
    e.unlock

/-- A request as routed by the `ServeMux` set up in `main`. -/
inductive Request where
  | postData (decoded : Option RequestPayload)
  | getData (encodeErr : Bool)
  | deleteData (key : String)
  | stats (encodeErr : Bool)
deriving DecidableEq

/-- Dispatch of a request to its handler. -/
def handle (w : IntSize) (s : Server) : Request → Exec
  | Request.postData decoded => postDataHandler w s decoded
  | Request.getData encodeErr => getDataHandler s encodeErr
  | Request.deleteData key => deleteDataHandler w s key
  | Request.stats encodeErr => statsHandler s encodeErr

/-- The server after serving the requests one after another. -/
def serve (w : IntSize) (s : Server) : List Request → Server
  | [] => s
  | r :: rs => serve w (handle w s r).srv rs

/-- The status code answered to each request, paired with the request. -/
def answers (w : IntSize) (s : Server) : List Request → List (Request × Nat)
  | [] => []
  | r :: rs => (r, (handle w s r).w.code) :: answers w (handle w s r).srv rs

/-- Recognises a write that was answered `201`. -/
def isStoredWrite : Request × Nat → Bool
  | (Request.postData _, 201) => true
  | _ => false

/-- Recognises a delete that was answered `200`. -/
def isDoneDelete : Request × Nat → Bool
  | (Request.deleteData _, 200) => true
  | _ => false

/-- The value of the last write to key `k` in a sequence of writes, if there is one. -/
def lastWritten (writes : List RequestPayload) (k : String) : Option String :=
  ((writes.filter (fun p => p.Key = k)).getLast?).map (fun p => p.Value)

/-! ## Background worker -/

/-- The two states of the worker goroutine. -/
inductive WorkerState where
  | Running
  | Stopped
deriving DecidableEq, Repr

/-- What wakes the `select` of the worker: `ticker.C` or `s.shutDownCh`. -/
inductive Wake where
  | tick
  | stop
deriving DecidableEq, Repr

/-- One pass through the `select` inside the loop of `startBackgroundWorker`:
the tick case keeps looping, the stop case returns. -/
def workerSelect (s : Server) : Wake → WorkerState × Exec
  | Wake.tick =>
    let e := Exec.start s
    let e := e.lock
    let count := e.srv.requests
    let size := len e.srv.data
    let e := e.unlock
    (WorkerState.Running,
      e.printf ("[Worker Log] Requests: " ++ toString count ++ " | Database Size: "
        ++ toString size ++ "\n"))
  | Wake.stop =>
    let e := Exec.start s
    (WorkerState.Stopped, e.printf "Worker Stopped\n")

/-- The server process: the shared store, the worker goroutine and what the
worker has printed so far. -/
structure System where
  srv : Server
  worker : WorkerState
  workerOut : List String

/-- The process right after `main` has launched the worker. -/
def System.boot (s : Server) : System :=
  { srv := s, worker := WorkerState.Running, workerOut := [] }

/-- What can happen next in the process: a request is served, or the worker is woken. -/
inductive Action where
  | request (r : Request)
  | wake (wk : Wake)

/-- One step of the process.  Once `startBackgroundWorker` has returned, a
wake-up finds no goroutine to run. -/
def System.step (w : IntSize) (σ : System) : Action → System
  | Action.request r => { σ with srv := (handle w σ.srv r).srv }
  | Action.wake wk =>
    match σ.worker with
    | WorkerState.Stopped => σ
    | WorkerState.Running =>
      let res := workerSelect σ.srv wk
      { srv := res.2.srv, worker := res.1, workerOut := σ.workerOut ++ res.2.out }

/-- The process after a sequence of steps. -/
def System.run (w : IntSize) (σ : System) : List Action → System
  | [] => σ
  | a :: as => System.run w (σ.step w a) as

/-- The requests among a sequence of actions, in order. -/
def requestsOf : List Action → List Request
  | [] => []
  | Action.request r :: as => r :: requestsOf as
  | Action.wake _ :: as => requestsOf as

/-- The wake-ups among a sequence of actions, in order. -/
def wakesOf : List Action → List Wake
  | [] => []
  | Action.request _ :: as => wakesOf as
  | Action.wake wk :: as => wk :: wakesOf as

/-- What the worker is expected to print: for each tick that precedes the first
stop, the line `[Worker Log] Requests: <requests> | Database Size: <number of
keys>` built from the store as it is at that tick, then the line `Worker
Stopped` at the first stop, and nothing afterwards. -/
def expectedWorkerOut (w : IntSize) (s : Server) : List Action → List String
  | [] => []
  | Action.request r :: as => expectedWorkerOut w (handle w s r).srv as
  | Action.wake Wake.tick :: as =>
    ("[Worker Log] Requests: " ++ toString s.requests ++ " | Database Size: "
      ++ toString s.data.keys.length ++ "\n") :: expectedWorkerOut w s as
  | Action.wake Wake.stop :: _ => ["Worker Stopped\n"]

/-! ## Output while the mutex is held -/

/-- Response writes, response encodings and console prints. -/
def Event.isOutput : Event → Bool
  | Event.writeHeader _ => true
  | Event.write _ => true
  | Event.stdout _ => true
  | _ => false

/-- Scans a trace and tells whether some output event happens between a `lock`
and the matching `unlock`; `held` is whether the mutex is held on entry. -/
def outputWhileLocked (held : Bool) : List Event → Bool
  | [] => false
  | Event.lock :: t => outputWhileLocked true t
  | Event.unlock :: t => outputWhileLocked false t
  | ev :: t => (held && ev.isOutput) || outputWhileLocked held t

/-! ## Map objects as references -/

/-- Go maps are reference objects: a heap of map objects, a reference being an index. -/
abbrev Heap := List GoMap

/-- The map object behind a reference. -/
def Heap.deref (h : Heap) (r : Nat) : GoMap := h.getD r ∅

/-- Call `make(map[string]string)`: allocates a new empty map object. -/
def Heap.make (h : Heap) : Heap × Nat := (h ++ [∅], h.length)

/-- Assignment `m[k] = v` through the reference `r`. -/
def Heap.assign (h : Heap) (r : Nat) (k v : String) : Heap :=
  h.set r ((h.deref r).insert k v)

/-- Call `delete(m, k)` through the reference `r`. -/
def Heap.deleteKey (h : Heap) (r : Nat) (k : String) : Heap :=
  h.set r ((h.deref r).erase k)

/-- The copy made by `getDataHandler`, at the level of references: `dataCopy`
is allocated with `make` and filled through its reference while the entries of
the store's map are visited in the given order.  Returns the heap and the
reference held by `dataCopy`. -/
def copyByRef (h : Heap) (order : List (Sigma (fun _ : String => String))) : Heap × Nat :=
  let made := h.make
  (order.foldl (fun heap kv => heap.assign made.2 kv.1 kv.2) made.1, made.2)

/-- A sequence of writes as requests whose bodies decoded to the given payloads. -/
def postAll (writes : List RequestPayload) : List Request :=
  writes.map (fun p => Request.postData (some p))

/-- Three writes, the key `a` written twice. -/
def sampleWrites : List RequestPayload :=
  [{ Key := "a", Value := "1" }, { Key := "b", Value := "2" }, { Key := "a", Value := "3" }]

/-- A store holding the single entry `a ↦ 1` after one write. -/
def sampleServer : Server :=
  { data := AList.singleton "a" "1", requests := 1 }

/-- A heap with the store's map of `sampleServer` at reference `0`. -/
def sampleHeap : Heap := [AList.singleton "a" "1"]

/-- A run mixing accepted and rejected requests. -/
def sampleRequests : List Request :=
  [Request.postData (some { Key := "", Value := "x" }),
    Request.postData (some { Key := "a", Value := "1" }),
    Request.deleteData "",
    Request.postData none,
    Request.getData false]

/-- Three writes on distinct keys. -/
def distinctWrites : List RequestPayload :=
  [{ Key := "a", Value := "1" }, { Key := "b", Value := "2" }, { Key := "c", Value := "3" }]

/-- The writes of `distinctWrites` entering the critical section in another order. -/
def distinctWritesSchedule : List RequestPayload :=
  [{ Key := "c", Value := "3" }, { Key := "a", Value := "1" }, { Key := "b", Value := "2" }]

/-- A run long enough to overflow the counter: `2 ^ (bits - 1)` accepted writes
of `a=1`, one more than the largest `int`. -/
def overflowRun (w : IntSize) : List Request :=
  postAll (List.replicate (2 ^ (w.bits - 1)) { Key := "a", Value := "1" })

/-- A store holding `a ↦ 1` whose counter has reached the largest `int`. -/
def fullCounterServer (w : IntSize) : Server :=
  { data := AList.singleton "a" "1", requests := intMax w }

/-- A run of the process: a tick, an accepted write, a tick, a stop, a tick. -/
def sampleActions : List Action :=
  [Action.wake Wake.tick,
    Action.request (Request.postData (some { Key := "b", Value := "2" })),
    Action.wake Wake.tick,
    Action.wake Wake.stop,
    Action.wake Wake.tick]

/-! ## Arithmetic of the counter -/

theorem two_pow_bits (w : IntSize) : (2 : Int) ^ w.bits = 2 * 2 ^ (w.bits - 1) := by
  cases w <;> norm_num [IntSize.bits]

theorem half_range_pos (w : IntSize) : (0 : Int) < 2 ^ (w.bits - 1) := by
  positivity

theorem intMin_le_zero (w : IntSize) : intMin w ≤ 0 := by
  have := half_range_pos w
  unfold intMin
  omega

theorem zero_le_intMax (w : IntSize) : 0 ≤ intMax w := by
  have := half_range_pos w
  unfold intMax
  omega

/-- A value in range is stored unchanged. -/
theorem wrapInt_eq (w : IntSize) (x : Int) (h1 : intMin w ≤ x) (h2 : x ≤ intMax w) :
    wrapInt w x = x := by
  have hP := half_range_pos w
  unfold wrapInt
  unfold intMin at h1
  unfold intMax at h2
  rw [two_pow_bits]
  generalize (2 : Int) ^ (w.bits - 1) = P at *
  rw [Int.emod_eq_of_lt (by omega) (by omega)]
  omega

/-- What is stored is always in range. -/
theorem wrapInt_range (w : IntSize) (x : Int) :
    intMin w ≤ wrapInt w x ∧ wrapInt w x ≤ intMax w := by
  have hP := half_range_pos w
  unfold wrapInt intMin intMax
  rw [two_pow_bits]
  generalize (2 : Int) ^ (w.bits - 1) = P at *
  have h1 := Int.emod_nonneg (x + P) (show (2 * P) ≠ 0 by omega)
  have h2 := Int.emod_lt_of_pos (x + P) (show 0 < 2 * P by omega)
  constructor <;> omega

theorem wrapInt_add (w : IntSize) (a b : Int) :
    wrapInt w (wrapInt w a + b) = wrapInt w (a + b) := by
  unfold wrapInt
  have h : (a + 2 ^ (w.bits - 1)) % 2 ^ w.bits - 2 ^ (w.bits - 1) + b + 2 ^ (w.bits - 1)
      = (a + 2 ^ (w.bits - 1)) % 2 ^ w.bits + b := by ring
  rw [h, Int.emod_add_emod]
  congr 2
  ring

/-- One step past the largest value lands on the smallest. -/
theorem wrapInt_overflow (w : IntSize) : wrapInt w (intMax w + 1) = intMin w := by
  have hP := half_range_pos w
  unfold wrapInt intMin intMax
  rw [two_pow_bits]
  generalize (2 : Int) ^ (w.bits - 1) = P at *
  have h : P - 1 + 1 + P = 2 * P := by ring
  rw [h, Int.emod_self]
  omega

/-! ## Effect of each handler on the store and on the status code -/

theorem postDataHandler_srv (w : IntSize) (s : Server) (decoded : Option RequestPayload) :
    (postDataHandler w s decoded).srv =
      match decoded with
      | none => s
      | some p =>
        if p.Key = "" then s
        else { data := s.data.insert p.Key p.Value, requests := wrapInt w (s.requests + 1) } := by
  cases decoded with
  | none => rfl
  | some p =>
    by_cases h : p.Key = ""
    · simp [postDataHandler, h, Exec.httpError, Exec.setHeader, Exec.writeHeader, Exec.write,
        Exec.start]
    · simp [postDataHandler, h, Exec.lock, Exec.assign, Exec.incRequests, Exec.unlock,
        Exec.printf, Exec.writeHeader, Exec.write, Exec.start]

theorem postDataHandler_code (w : IntSize) (s : Server) (decoded : Option RequestPayload) :
    (postDataHandler w s decoded).w.code =
      match decoded with
      | none => 400
      | some p => if p.Key = "" then 400 else 201 := by
  cases decoded with
  | none => rfl
  | some p =>
    by_cases h : p.Key = ""
    · simp [postDataHandler, h, Exec.httpError, Exec.setHeader, Exec.writeHeader, Exec.write,
        Exec.start, ResponseWriter.code]
    · simp [postDataHandler, h, Exec.lock, Exec.assign, Exec.incRequests, Exec.unlock,
        Exec.printf, Exec.writeHeader, Exec.write, Exec.start, ResponseWriter.code]

theorem getDataHandler_srv (s : Server) (encodeErr : Bool) :
    (getDataHandler s encodeErr).srv = s := by
  cases encodeErr <;> rfl

theorem statsHandler_srv (s : Server) (encodeErr : Bool) :
    (statsHandler s encodeErr).srv = s := by
  cases encodeErr <;> rfl

theorem deleteDataHandler_srv (w : IntSize) (s : Server) (key : String) :
    (deleteDataHandler w s key).srv =
      if key = "" then s
      else if (s.data.lookup key).isNone then s
      else { data := s.data.erase key, requests := wrapInt w (s.requests + 1) } := by
  by_cases h : key = ""
  · simp [deleteDataHandler, h, Exec.httpError, Exec.setHeader, Exec.writeHeader, Exec.write,
      Exec.start]
  · by_cases hk : (s.data.lookup key).isNone
    · simp [deleteDataHandler, h, Exec.httpError, Exec.setHeader, Exec.writeHeader,
        Exec.write, Exec.start, Exec.lock, Exec.unlock, hk]
    · simp [deleteDataHandler, h, Exec.start, Exec.lock, Exec.unlock, hk, Exec.deleteKey,
        Exec.incRequests, Exec.printf, Exec.writeHeader, Exec.write]

theorem deleteDataHandler_code (w : IntSize) (s : Server) (key : String) :
    (deleteDataHandler w s key).w.code =
      if key = "" then 400
      else if (s.data.lookup key).isNone then 404
      else 200 := by
  by_cases h : key = ""
  · simp [deleteDataHandler, h, Exec.httpError, Exec.setHeader, Exec.writeHeader, Exec.write,
      Exec.start, ResponseWriter.code]
  · by_cases hk : (s.data.lookup key).isNone
    · simp [deleteDataHandler, h, Exec.httpError, Exec.setHeader, Exec.writeHeader,
        Exec.write, Exec.start, Exec.lock, Exec.unlock, hk, ResponseWriter.code]
    · simp [deleteDataHandler, h, Exec.start, Exec.lock, Exec.unlock, hk, Exec.deleteKey,
        Exec.incRequests, Exec.printf, Exec.writeHeader, Exec.write, ResponseWriter.code]

theorem statsHandler_body (s : Server) :
    (statsHandler s false).w.body = [Chunk.jsonInts [("total_requests", s.requests)]] ∧
      (statsHandler s false).w.code = 200 := by
  constructor <;> rfl

/-- One request leaves the counter alone unless it is a write answered `201` or
a delete answered `200`, which increment it with wrap-around. -/
theorem handle_requests (w : IntSize) (s : Server) (r : Request) :
    (handle w s r).srv.requests =
      if isStoredWrite (r, (handle w s r).w.code) || isDoneDelete (r, (handle w s r).w.code)
      then wrapInt w (s.requests + 1) else s.requests := by
  cases r with
  | postData decoded =>
    cases decoded with
    | none => simp [handle, postDataHandler_srv, postDataHandler_code, isStoredWrite, isDoneDelete]
    | some p =>
      by_cases h : p.Key = "" <;>
        simp [handle, postDataHandler_srv, postDataHandler_code, isStoredWrite, isDoneDelete, h]
  | getData encodeErr => simp [handle, getDataHandler_srv, isStoredWrite, isDoneDelete]
  | deleteData key =>
    by_cases h : key = ""
    · simp [handle, deleteDataHandler_srv, deleteDataHandler_code, isStoredWrite,
        isDoneDelete, h]
    · by_cases hk : (s.data.lookup key).isNone <;>
        simp [handle, deleteDataHandler_srv, deleteDataHandler_code, isStoredWrite,
          isDoneDelete, h, hk]
  | stats encodeErr => simp [handle, statsHandler_srv, isStoredWrite, isDoneDelete]

/-- A request is never both a stored write and a done delete. -/
theorem not_stored_and_done (a : Request × Nat) :
    ¬ (isStoredWrite a = true ∧ isDoneDelete a = true) := by
  obtain ⟨r, c⟩ := a
  cases r <;> simp [isStoredWrite, isDoneDelete]

/-- From a counter in range, the counter after a run is the number of stored
writes and done deletes added to it, reduced to the `int` range. -/
theorem serve_requests_wrap (w : IntSize) (rs : List Request) (s : Server)
    (h1 : intMin w ≤ s.requests) (h2 : s.requests ≤ intMax w) :
    (serve w s rs).requests =
      wrapInt w (s.requests + ((answers w s rs).countP isStoredWrite : Nat)
        + ((answers w s rs).countP isDoneDelete : Nat)) := by
  induction rs generalizing s with
  | nil => simp [serve, answers, wrapInt_eq w s.requests h1 h2]
  | cons r rs ih =>
    have hstep := handle_requests w s r
    have hns := not_stored_and_done (r, (handle w s r).w.code)
    have hrange : intMin w ≤ (handle w s r).srv.requests ∧
        (handle w s r).srv.requests ≤ intMax w := by
      rw [hstep]
      split_ifs
      · exact wrapInt_range w _
      · exact ⟨h1, h2⟩
    rw [serve, ih _ hrange.1 hrange.2, answers, List.countP_cons, List.countP_cons, hstep]
    cases hsw : isStoredWrite (r, (handle w s r).w.code) <;>
      cases hdd : isDoneDelete (r, (handle w s r).w.code)
    · simp
    · simp only [Bool.false_or, if_true, Bool.false_eq_true, if_false]
      rw [add_assoc, wrapInt_add]
      congr 1
      push_cast
      ring
    · simp only [Bool.true_or, if_true, Bool.false_eq_true, if_false]
      rw [add_assoc, wrapInt_add]
      congr 1
      push_cast
      ring
    · exact absurd ⟨hsw, hdd⟩ hns

/-! ## The counter over a run -/

/-- C1 (amended): from a new server, after any finite sequence of handler
invocations the counter `requests` equals the number of writes answered 201
plus the number of deletes answered 200, reduced to the `int` range; it equals
that number exactly whenever the number does not exceed the largest `int`; and
the stats handler reports the counter as `total_requests`. -/
theorem total_requests_counts_successful_mutations (w : IntSize) (rs : List Request) :
    (serve w NewServer rs).requests =
        wrapInt w (((answers w NewServer rs).countP isStoredWrite
          + (answers w NewServer rs).countP isDoneDelete : Nat) : Int) ∧
      ((((answers w NewServer rs).countP isStoredWrite
          + (answers w NewServer rs).countP isDoneDelete : Nat) : Int) ≤ intMax w →
        (serve w NewServer rs).requests =
          (((answers w NewServer rs).countP isStoredWrite
            + (answers w NewServer rs).countP isDoneDelete : Nat) : Int)) ∧
      (statsHandler (serve w NewServer rs) false).w.body =
        [Chunk.jsonInts [("total_requests", (serve w NewServer rs).requests)]] ∧
      (statsHandler (serve w NewServer rs) false).w.code = 200 := by
  have h0 : NewServer.requests = 0 := rfl
  have h := serve_requests_wrap w rs NewServer (by rw [h0]; exact intMin_le_zero w)
    (by rw [h0]; exact zero_le_intMax w)
  rw [h0, zero_add] at h
  have hw : (serve w NewServer rs).requests =
      wrapInt w (((answers w NewServer rs).countP isStoredWrite
        + (answers w NewServer rs).countP isDoneDelete : Nat) : Int) := by
    rw [h]; push_cast; rfl
  refine ⟨hw, ?_, (statsHandler_body _).1, (statsHandler_body _).2⟩
  intro hbound
  rw [hw]
  exact wrapInt_eq w _ (le_trans (intMin_le_zero w) (Int.natCast_nonneg _)) hbound

/-- Witness for C1: a run with one accepted write among rejected requests and a
read, on a 64-bit target. -/
theorem total_requests_counts_successful_mutations_witness :
    ((((answers IntSize.bits64 NewServer sampleRequests).countP isStoredWrite
        + (answers IntSize.bits64 NewServer sampleRequests).countP isDoneDelete : Nat) : Int)
          ≤ intMax IntSize.bits64) ∧
      (serve IntSize.bits64 NewServer sampleRequests).requests =
        (((answers IntSize.bits64 NewServer sampleRequests).countP isStoredWrite
          + (answers IntSize.bits64 NewServer sampleRequests).countP isDoneDelete : Nat) : Int) ∧
      (answers IntSize.bits64 NewServer sampleRequests).countP isStoredWrite = 1 ∧
      (answers IntSize.bits64 NewServer sampleRequests).countP isDoneDelete = 0 :=
  ⟨by decide,
    (total_requests_counts_successful_mutations IntSize.bits64 sampleRequests).2.1 (by decide),
    by decide, by decide⟩

theorem answers_length (w : IntSize) (rs : List Request) (s : Server) :
    (answers w s rs).length = rs.length := by
  induction rs generalizing s with
  | nil => rfl
  | cons r rs ih => simp [answers, ih]

/-- Every answer to a run of accepted writes is a write answered `201`. -/
theorem answers_postAll_stored (w : IntSize) (writes : List RequestPayload)
    (hkeys : ∀ p ∈ writes, p.Key ≠ "") (s : Server) :
    ∀ a ∈ answers w s (postAll writes), isStoredWrite a = true ∧ isDoneDelete a = false := by
  induction writes generalizing s with
  | nil => simp [postAll, answers]
  | cons p ps ih =>
    have hp : p.Key ≠ "" := hkeys p (List.mem_cons_self _ _)
    have hps : ∀ q ∈ ps, q.Key ≠ "" := fun q hq => hkeys q (List.mem_cons_of_mem _ hq)
    intro a ha
    simp only [postAll, List.map_cons, answers, List.mem_cons] at ha
    rcases ha with rfl | ha
    · simp [handle, postDataHandler_code, hp, isStoredWrite, isDoneDelete]
    · exact ih hps _ a ha

/-- The run `overflowRun`: every one of its `2 ^ (bits - 1)` writes is answered
`201`, no delete occurs, and the counter ends at the smallest `int`. -/
theorem overflowRun_spec (w : IntSize) :
    (answers w NewServer (overflowRun w)).countP isStoredWrite = 2 ^ (w.bits - 1) ∧
      (answers w NewServer (overflowRun w)).countP isDoneDelete = 0 ∧
      (serve w NewServer (overflowRun w)).requests = intMin w := by
  have hkeys : ∀ p ∈ List.replicate (2 ^ (w.bits - 1))
      ({ Key := "a", Value := "1" } : RequestPayload), p.Key ≠ "" := by
    intro p hp
    rw [List.eq_of_mem_replicate hp]
    decide
  have hall := answers_postAll_stored w _ hkeys NewServer
  have hN : (answers w NewServer (overflowRun w)).countP isStoredWrite = 2 ^ (w.bits - 1) := by
    have hlen : (answers w NewServer (overflowRun w)).length = 2 ^ (w.bits - 1) := by
      rw [answers_length, overflowRun, postAll, List.length_map, List.length_replicate]
    rw [← hlen]
    exact List.countP_eq_length.mpr (fun a ha => (hall a ha).1)
  have hM : (answers w NewServer (overflowRun w)).countP isDoneDelete = 0 := by
    apply List.countP_eq_zero.mpr
    intro a ha
    rw [(hall a ha).2]
    exact Bool.false_ne_true
  refine ⟨hN, hM, ?_⟩
  have h0 : NewServer.requests = 0 := rfl
  have h := serve_requests_wrap w (overflowRun w) NewServer
    (by rw [h0]; exact intMin_le_zero w) (by rw [h0]; exact zero_le_intMax w)
  rw [h, hN, hM, h0, ← wrapInt_overflow w]
  congr 1
  unfold intMax
  push_cast
  ring

theorem overflowRun_not_sum (w : IntSize) :
    ¬ ((serve w NewServer (overflowRun w)).requests =
      (((answers w NewServer (overflowRun w)).countP isStoredWrite
        + (answers w NewServer (overflowRun w)).countP isDoneDelete : Nat) : Int)) := by
  obtain ⟨hN, hM, hr⟩ := overflowRun_spec w
  rw [hr, hN, hM]
  have hP := half_range_pos w
  unfold intMin
  push_cast
  omega

/-- C1 as stated fails: after `2 ^ 63` accepted writes on a 64-bit target, all
answered 201 and with no delete, the counter has wrapped around to the smallest
`int` and is not the number of writes answered 201 plus deletes answered 200;
likewise after `2 ^ 31` accepted writes on a 32-bit target. -/
theorem total_requests_wraps_counterexample :
    ((answers IntSize.bits64 NewServer (overflowRun IntSize.bits64)).countP isStoredWrite
          = 2 ^ 63 ∧
        (answers IntSize.bits64 NewServer (overflowRun IntSize.bits64)).countP isDoneDelete
          = 0 ∧
        (serve IntSize.bits64 NewServer (overflowRun IntSize.bits64)).requests
          = intMin IntSize.bits64 ∧
        intMin IntSize.bits64 = -9223372036854775808 ∧
        ¬ ((serve IntSize.bits64 NewServer (overflowRun IntSize.bits64)).requests =
          (((answers IntSize.bits64 NewServer (overflowRun IntSize.bits64)).countP
              isStoredWrite
            + (answers IntSize.bits64 NewServer (overflowRun IntSize.bits64)).countP
              isDoneDelete : Nat) : Int))) ∧
      ((answers IntSize.bits32 NewServer (overflowRun IntSize.bits32)).countP isStoredWrite
          = 2 ^ 31 ∧
        (serve IntSize.bits32 NewServer (overflowRun IntSize.bits32)).requests
          = intMin IntSize.bits32 ∧
        intMin IntSize.bits32 = -2147483648 ∧
        ¬ ((serve IntSize.bits32 NewServer (overflowRun IntSize.bits32)).requests =
          (((answers IntSize.bits32 NewServer (overflowRun IntSize.bits32)).countP
              isStoredWrite
            + (answers IntSize.bits32 NewServer (overflowRun IntSize.bits32)).countP
              isDoneDelete : Nat) : Int))) :=
  ⟨⟨(overflowRun_spec IntSize.bits64).1, (overflowRun_spec IntSize.bits64).2.1,
      (overflowRun_spec IntSize.bits64).2.2, by norm_num [intMin, IntSize.bits],
      overflowRun_not_sum IntSize.bits64⟩,
    ⟨(overflowRun_spec IntSize.bits32).1, (overflowRun_spec IntSize.bits32).2.2,
      by norm_num [intMin, IntSize.bits], overflowRun_not_sum IntSize.bits32⟩⟩

/-! ## The copy loop -/

/-- Filling a map from a list of entries with distinct keys: a key of the list
gets the list's value, any other key keeps what the map had. -/
theorem foldl_insert_lookup (l : List (Sigma (fun _ : String => String)))
    (hl : l.NodupKeys) (acc : GoMap) (k : String) :
    (l.foldl (fun dataCopy kv => dataCopy.insert kv.1 kv.2) acc).lookup k =
      match l.dlookup k with
      | some v => some v
      | none => acc.lookup k := by
  induction l generalizing acc with
  | nil => simp
  | cons e l ih =>
    obtain ⟨a, b⟩ := e
    obtain ⟨hnot, hl2⟩ := List.nodupKeys_cons.mp hl
    rw [List.foldl_cons, ih hl2]
    by_cases hk : k = a
    · subst hk
      have hnone : l.dlookup k = none := List.dlookup_eq_none.mpr hnot
      simp [hnone, AList.lookup_insert, List.dlookup_cons_eq]
    · rw [List.dlookup_cons_ne l ⟨a, b⟩ hk, AList.lookup_insert_ne hk]

theorem rangeCopy_lookup (order : List (Sigma (fun _ : String => String)))
    (h : order.NodupKeys) (k : String) :
    (rangeCopy order).lookup k = order.dlookup k := by
  rw [rangeCopy, foldl_insert_lookup order h]
  cases order.dlookup k <;> simp

/-- Whatever the order in which the entries of `m` are visited, the copy has
the lookups of `m`. -/
theorem rangeCopy_perm (m : GoMap) (order : List (Sigma (fun _ : String => String)))
    (h : order.Perm m.entries) (k : String) :
    (rangeCopy order).lookup k = m.lookup k := by
  have hnd : order.NodupKeys := (List.perm_nodupKeys h).mpr m.nodupKeys
  rw [rangeCopy_lookup order hnd]
  exact List.perm_dlookup k hnd m.nodupKeys h

/-! ## Sequences of writes -/

theorem lastWritten_cons (p : RequestPayload) (ps : List RequestPayload) (k : String) :
    lastWritten (p :: ps) k =
      match lastWritten ps k with
      | some v => some v
      | none => if p.Key = k then some p.Value else none := by
  unfold lastWritten
  by_cases h : p.Key = k
  · rw [List.filter_cons_of_pos (by simpa using h)]
    cases hf : ps.filter (fun q => decide (q.Key = k)) with
    | nil => simp [h]
    | cons q qs =>
      rw [List.getLast?_cons_cons]
      cases hg : (q :: qs).getLast? with
      | none => simp at hg
      | some v => simp
  · rw [List.filter_cons_of_neg (by simpa using h)]
    cases hf : (ps.filter (fun q => decide (q.Key = k))).getLast? <;> simp [h]

theorem lastWritten_isSome (ps : List RequestPayload) (k : String) :
    (lastWritten ps k).isSome ↔ ∃ p ∈ ps, p.Key = k := by
  induction ps with
  | nil => simp [lastWritten]
  | cons p ps ih =>
    rw [lastWritten_cons]
    cases hl : lastWritten ps k with
    | none =>
      have hno : ¬ ∃ q ∈ ps, q.Key = k := by
        intro hex
        have := ih.mpr hex
        simp [hl] at this
      by_cases h : p.Key = k
      · simp [h]
      · simp only [h, if_false, Option.isSome_none, Bool.false_eq_true, false_iff]
        rintro ⟨q, hq, hqk⟩
        rcases List.mem_cons.mp hq with rfl | hq2
        · exact h hqk
        · exact hno ⟨q, hq2, hqk⟩
    | some v =>
      have hex : ∃ q ∈ ps, q.Key = k := ih.mp (by simp [hl])
      obtain ⟨q, hq, hqk⟩ := hex
      simp only [Option.isSome_some, true_iff]
      exact ⟨q, List.mem_cons_of_mem _ hq, hqk⟩

/-- After a sequence of accepted writes, a key holds the value of its last
write, or what the store had before when it was not written. -/
theorem serve_postAll_lookup {w : IntSize} (writes : List RequestPayload)
    (hkeys : ∀ p ∈ writes, p.Key ≠ "") (s : Server) (k : String) :
    (serve w s (postAll writes)).data.lookup k =
      match lastWritten writes k with
      | some v => some v
      | none => s.data.lookup k := by
  induction writes generalizing s with
  | nil => simp [postAll, serve, lastWritten]
  | cons p ps ih =>
    have hp : p.Key ≠ "" := hkeys p (List.mem_cons_self _ _)
    have hps : ∀ q ∈ ps, q.Key ≠ "" := fun q hq => hkeys q (List.mem_cons_of_mem _ hq)
    have hstep : serve w s (postAll (p :: ps)) =
        serve w { data := s.data.insert p.Key p.Value, requests := wrapInt w (s.requests + 1) }
          (postAll ps) := by
      simp [postAll, serve, handle, postDataHandler_srv, hp]
    rw [hstep, ih hps, lastWritten_cons]
    cases lastWritten ps k with
    | some v => rfl
    | none =>
      by_cases h : p.Key = k
      · subst h
        simp [AList.lookup_insert]
      · have hne : k ≠ p.Key := fun e => h e.symm
        simp [h, AList.lookup_insert_ne hne]

theorem answers_postAll {w : IntSize} (writes : List RequestPayload)
    (hkeys : ∀ p ∈ writes, p.Key ≠ "") (s : Server) :
    ∀ a ∈ answers w s (postAll writes), a.2 = 201 := by
  induction writes generalizing s with
  | nil => simp [postAll, answers]
  | cons p ps ih =>
    have hp : p.Key ≠ "" := hkeys p (List.mem_cons_self _ _)
    have hps : ∀ q ∈ ps, q.Key ≠ "" := fun q hq => hkeys q (List.mem_cons_of_mem _ hq)
    intro a ha
    simp only [postAll, List.map_cons, answers, List.mem_cons] at ha
    rcases ha with rfl | ha
    · simp [handle, postDataHandler_code, hp]
    · exact ih hps _ a ha

/-- C2: from a new server, after any sequence of accepted writes (non-empty
keys, each answered 201), the mapping that the read handler encodes has exactly
the written keys and maps each of them to the value of its last write, whatever
the order in which the copy loop visits the store. -/
theorem getall_after_writes_is_last_written (w : IntSize) (writes : List RequestPayload)
    (hkeys : ∀ p ∈ writes, p.Key ≠ "")
    (order : List (Sigma (fun _ : String => String)))
    (horder : order.Perm (serve w NewServer (postAll writes)).data.entries) :
    (∀ a ∈ answers w NewServer (postAll writes), a.2 = 201) ∧
      (∀ k, (rangeCopy order).lookup k = lastWritten writes k) ∧
      (∀ k, k ∈ rangeCopy order ↔ ∃ p ∈ writes, p.Key = k) ∧
      (getDataHandler (serve w NewServer (postAll writes)) false).w.body =
        [Chunk.jsonMap (rangeCopy (serve w NewServer (postAll writes)).data.entries)] ∧
      (getDataHandler (serve w NewServer (postAll writes)) false).w.code = 200 := by
  have hlook : ∀ k, (rangeCopy order).lookup k = lastWritten writes k := by
    intro k
    rw [rangeCopy_perm _ order horder, serve_postAll_lookup writes hkeys]
    cases lastWritten writes k <;> simp [NewServer]
  refine ⟨answers_postAll writes hkeys NewServer, hlook, ?_, rfl, rfl⟩
  intro k
  rw [← AList.lookup_isSome, hlook, lastWritten_isSome]

/-- Witness for C2: the writes `a=1`, `b=2`, `a=3`, the copy loop visiting the
store in its own order. -/
theorem getall_after_writes_is_last_written_witness :
    (∀ p ∈ sampleWrites, p.Key ≠ "") ∧
      (rangeCopy (serve IntSize.bits64 NewServer (postAll sampleWrites)).data.entries).lookup "a"
        = lastWritten sampleWrites "a" ∧
      lastWritten sampleWrites "a" = some "3" :=
  ⟨by decide,
    (getall_after_writes_is_last_written IntSize.bits64 sampleWrites (by decide)
      (serve IntSize.bits64 NewServer (postAll sampleWrites)).data.entries
      (List.Perm.refl _)).2.1 "a",
    by decide⟩

/-! ## Deletes -/

theorem deleteDataHandler_body_found {w : IntSize} (s : Server) (key : String) (hkey : key ≠ "")
    (hpresent : key ∈ s.data) :
    (deleteDataHandler w s key).w.body = [Chunk.text ("Deleted Key: " ++ key)] := by
  have hk : ¬ (s.data.lookup key).isNone = true := by
    have := AList.lookup_isSome.mpr hpresent
    cases h : s.data.lookup key <;> simp_all
  simp [deleteDataHandler, hkey, Exec.start, Exec.lock, Exec.unlock, hk, Exec.deleteKey,
    Exec.incRequests, Exec.printf, Exec.writeHeader, Exec.write]

/-- A request that is not an accepted write to `key` cannot make `key` present. -/
theorem handle_keeps_absent {w : IntSize} (s : Server) (r : Request) (key : String)
    (habsent : key ∉ s.data) (hr : ∀ p, r = Request.postData (some p) → p.Key ≠ key) :
    key ∉ (handle w s r).srv.data := by
  cases r with
  | postData decoded =>
    cases decoded with
    | none => simpa [handle, postDataHandler_srv] using habsent
    | some p =>
      have hpk : p.Key ≠ key := hr p rfl
      by_cases h : p.Key = ""
      · simpa [handle, postDataHandler_srv, h] using habsent
      · simp only [handle, postDataHandler_srv, h, if_false, AList.mem_insert, not_or]
        exact ⟨fun e => hpk e.symm, habsent⟩
  | getData encodeErr => simpa [handle, getDataHandler_srv] using habsent
  | deleteData k =>
    simp only [handle, deleteDataHandler_srv]
    split_ifs
    · exact habsent
    · exact habsent
    · simp only [AList.mem_erase, not_and]
      exact fun _ => habsent
  | stats encodeErr => simpa [handle, statsHandler_srv] using habsent

theorem serve_keeps_absent {w : IntSize} (rs : List Request) (s : Server) (key : String)
    (habsent : key ∉ s.data) (hrs : ∀ p, Request.postData (some p) ∈ rs → p.Key ≠ key) :
    key ∉ (serve w s rs).data := by
  induction rs generalizing s with
  | nil => simpa [serve] using habsent
  | cons r rs ih =>
    rw [serve]
    apply ih
    · exact handle_keeps_absent s r key habsent
        (fun p hp => hrs p (hp ▸ List.mem_cons_self _ _))
    · exact fun p hp => hrs p (List.mem_cons_of_mem _ hp)

/-- C3 (amended): deleting a non-empty key that is present answers 200 with
body `Deleted Key: <key>`, and the key is absent from the mapping every later
read builds, as long as no write to that key is accepted in between; `requests`
is incremented with wrap-around, so it is increased by exactly 1 whenever it
was an `int` below the largest one. -/
theorem delete_present_key (w : IntSize) (s : Server) (key : String) (hkey : key ≠ "")
    (hpresent : key ∈ s.data) :
    (deleteDataHandler w s key).w.code = 200 ∧
      (deleteDataHandler w s key).w.body = [Chunk.text ("Deleted Key: " ++ key)] ∧
      (deleteDataHandler w s key).srv.requests = wrapInt w (s.requests + 1) ∧
      (intMin w ≤ s.requests → s.requests < intMax w →
        (deleteDataHandler w s key).srv.requests = s.requests + 1) ∧
      (∀ rs : List Request, (∀ p, Request.postData (some p) ∈ rs → p.Key ≠ key) →
        ∀ order : List (Sigma (fun _ : String => String)),
          order.Perm (serve w (deleteDataHandler w s key).srv rs).data.entries →
            key ∉ rangeCopy order) := by
  have hk : ¬ (s.data.lookup key).isNone = true := by
    have := AList.lookup_isSome.mpr hpresent
    cases h : s.data.lookup key <;> simp_all
  have hreq : (deleteDataHandler w s key).srv.requests = wrapInt w (s.requests + 1) := by
    simp [deleteDataHandler_srv, hkey, hk]
  refine ⟨?_, deleteDataHandler_body_found s key hkey hpresent, hreq, ?_, ?_⟩
  · simp [deleteDataHandler_code, hkey, hk]
  · intro hmin hmax
    rw [hreq]
    exact wrapInt_eq w _ (by omega) (by omega)
  · intro rs hrs order horder
    have hgone : key ∉ (deleteDataHandler w s key).srv.data := by
      simp [deleteDataHandler_srv, hkey, hk, AList.mem_erase]
    have hlater := @serve_keeps_absent w rs _ key hgone hrs
    rw [← AList.lookup_eq_none] at hlater ⊢
    rw [rangeCopy_perm _ order horder]
    exact hlater

/-- Witness for C3: `DELETE /data/a` on the store holding `a ↦ 1` with counter
`1` on a 64-bit target, then a read and a write to another key. -/
theorem delete_present_key_witness :
    ("a" ≠ "" ∧ "a" ∈ sampleServer.data ∧
        intMin IntSize.bits64 ≤ sampleServer.requests ∧
        sampleServer.requests < intMax IntSize.bits64) ∧
      (deleteDataHandler IntSize.bits64 sampleServer "a").w.code = 200 ∧
      (deleteDataHandler IntSize.bits64 sampleServer "a").srv.requests
        = sampleServer.requests + 1 ∧
      "a" ∉ rangeCopy (serve IntSize.bits64
        (deleteDataHandler IntSize.bits64 sampleServer "a").srv
        [Request.getData false,
          Request.postData (some { Key := "b", Value := "2" })]).data.entries :=
  ⟨⟨by decide, by decide, by decide, by decide⟩,
    (delete_present_key IntSize.bits64 sampleServer "a" (by decide) (by decide)).1,
    (delete_present_key IntSize.bits64 sampleServer "a" (by decide) (by decide)).2.2.2.1
      (by decide) (by decide),
    (delete_present_key IntSize.bits64 sampleServer "a" (by decide) (by decide)).2.2.2.2
      [Request.getData false, Request.postData (some { Key := "b", Value := "2" })]
      (by
        intro p hp
        simp only [List.mem_cons, List.mem_singleton, reduceCtorEq, false_or,
          Request.postData.injEq, Option.some.injEq, List.not_mem_nil, or_false] at hp
        subst hp
        decide)
      _ (List.Perm.refl _)⟩

/-- C3 as stated fails: on the store holding `a ↦ 1` whose counter is the
largest `int`, `DELETE /data/a` is answered 200 and the counter becomes the
smallest `int`, not the old value plus one (64-bit and 32-bit targets). -/
theorem delete_present_key_wraps_counterexample :
    ("a" ≠ "" ∧ "a" ∈ (fullCounterServer IntSize.bits64).data ∧
        (deleteDataHandler IntSize.bits64 (fullCounterServer IntSize.bits64) "a").w.code = 200 ∧
        (deleteDataHandler IntSize.bits64 (fullCounterServer IntSize.bits64) "a").srv.requests
          = intMin IntSize.bits64 ∧
        ¬ ((deleteDataHandler IntSize.bits64 (fullCounterServer IntSize.bits64) "a").srv.requests
          = (fullCounterServer IntSize.bits64).requests + 1)) ∧
      ("a" ∈ (fullCounterServer IntSize.bits32).data ∧
        (deleteDataHandler IntSize.bits32 (fullCounterServer IntSize.bits32) "a").srv.requests
          = intMin IntSize.bits32 ∧
        ¬ ((deleteDataHandler IntSize.bits32 (fullCounterServer IntSize.bits32) "a").srv.requests
          = (fullCounterServer IntSize.bits32).requests + 1)) := by
  have hwrap : ∀ w : IntSize,
      (deleteDataHandler w (fullCounterServer w) "a").srv.requests = intMin w := by
    intro w
    rw [deleteDataHandler_srv]
    have hk : ((fullCounterServer w).data.lookup "a").isNone = false := by
      cases w <;> decide
    simp only [hk, Bool.false_eq_true, if_false]
    rw [if_neg (by decide)]
    exact wrapInt_overflow w
  have hne : ∀ w : IntSize, ¬ (intMin w = (fullCounterServer w).requests + 1) := by
    intro w
    have hP := half_range_pos w
    show ¬ (intMin w = intMax w + 1)
    unfold intMin intMax
    omega
  refine ⟨⟨by decide, by decide, ?_, hwrap _, ?_⟩, by decide, hwrap _, ?_⟩
  · rw [deleteDataHandler_code]
    decide
  · rw [hwrap]; exact hne _
  · rw [hwrap]; exact hne _

/-- C4: for a non-empty key the delete handler answers 404 exactly when the key
is absent from `data`, and then `data` and `requests` are left as they were. -/
theorem delete_absent_key (w : IntSize) (s : Server) (key : String) (hkey : key ≠ "") :
    ((deleteDataHandler w s key).w.code = 404 ↔ key ∉ s.data) ∧
      (key ∉ s.data →
        (deleteDataHandler w s key).srv.data = s.data ∧
          (deleteDataHandler w s key).srv.requests = s.requests) := by
  have habs : key ∉ s.data ↔ (s.data.lookup key).isNone = true := by
    rw [← AList.lookup_eq_none]
    cases s.data.lookup key <;> simp
  constructor
  · rw [habs, deleteDataHandler_code]
    by_cases hk : (s.data.lookup key).isNone = true <;> simp [hkey, hk]
  · intro h
    rw [habs] at h
    simp [deleteDataHandler_srv, hkey, h]

/-- Witness for C4: `DELETE /data/zz` on the store holding only `a`. -/
theorem delete_absent_key_witness :
    "zz" ≠ "" ∧ (deleteDataHandler IntSize.bits64 sampleServer "zz").w.code = 404 ∧
      (deleteDataHandler IntSize.bits64 sampleServer "zz").srv.requests = sampleServer.requests :=
  ⟨by decide,
    (delete_absent_key IntSize.bits64 sampleServer "zz" (by decide)).1.mpr (by decide),
    ((delete_absent_key IntSize.bits64 sampleServer "zz" (by decide)).2 (by decide)).2⟩

/-- C5: a write whose body cannot be decoded, a write whose decoded key is
empty and a delete whose key is empty are each answered 400 and leave `data`
and `requests` unchanged. -/
theorem malformed_requests_rejected (w : IntSize) (s : Server) (value : String) :
    ((postDataHandler w s none).w.code = 400 ∧
        (postDataHandler w s none).srv.data = s.data ∧
        (postDataHandler w s none).srv.requests = s.requests) ∧
      ((postDataHandler w s (some { Key := "", Value := value })).w.code = 400 ∧
        (postDataHandler w s (some { Key := "", Value := value })).srv.data = s.data ∧
        (postDataHandler w s (some { Key := "", Value := value })).srv.requests = s.requests) ∧
      ((deleteDataHandler w s "").w.code = 400 ∧
        (deleteDataHandler w s "").srv.data = s.data ∧
        (deleteDataHandler w s "").srv.requests = s.requests) :=
  ⟨⟨rfl, rfl, rfl⟩, ⟨rfl, rfl, rfl⟩, ⟨rfl, rfl, rfl⟩⟩

/-! ## Reads -/

theorem deref_assign_ne (h : Heap) (r r' : Nat) (k v : String) (hne : r ≠ r') :
    (h.assign r k v).deref r' = h.deref r' := by
  simp [Heap.assign, Heap.deref, List.getElem?_set_ne hne]

theorem deref_deleteKey_ne (h : Heap) (r r' : Nat) (k : String) (hne : r ≠ r') :
    (h.deleteKey r k).deref r' = h.deref r' := by
  simp [Heap.deleteKey, Heap.deref, List.getElem?_set_ne hne]

theorem deref_assign_self (h : Heap) (r : Nat) (k v : String) (hr : r < h.length) :
    (h.assign r k v).deref r = (h.deref r).insert k v := by
  simp [Heap.assign, Heap.deref, List.getElem?_set_self hr]

theorem length_assign (h : Heap) (r : Nat) (k v : String) :
    (h.assign r k v).length = h.length := by
  simp [Heap.assign]

/-- Filling the object `c` through its reference touches no other object. -/
theorem foldl_assign (order : List (Sigma (fun _ : String => String))) (c : Nat)
    (heap : Heap) (hc : c < heap.length) :
    (order.foldl (fun hp kv => hp.assign c kv.1 kv.2) heap).deref c
        = order.foldl (fun dataCopy kv => dataCopy.insert kv.1 kv.2) (heap.deref c) ∧
      ∀ r, r ≠ c →
        (order.foldl (fun hp kv => hp.assign c kv.1 kv.2) heap).deref r = heap.deref r := by
  induction order generalizing heap with
  | nil => simp
  | cons e es ih =>
    have hc2 : c < (heap.assign c e.1 e.2).length := by rw [length_assign]; exact hc
    obtain ⟨h1, h2⟩ := ih (heap.assign c e.1 e.2) hc2
    simp only [List.foldl_cons]
    refine ⟨?_, ?_⟩
    · rw [h1, deref_assign_self heap c e.1 e.2 hc]
    · intro r hr
      rw [h2 r hr, deref_assign_ne heap c r e.1 e.2 (fun e => hr e.symm)]

theorem copyByRef_spec (h : Heap) (order : List (Sigma (fun _ : String => String))) :
    (copyByRef h order).2 = h.length ∧
      (copyByRef h order).1.deref (copyByRef h order).2 = rangeCopy order ∧
      ∀ r, r < h.length → (copyByRef h order).1.deref r = h.deref r := by
  have hc : h.length < (h ++ [(∅ : GoMap)]).length := by simp
  obtain ⟨h1, h2⟩ := foldl_assign order h.length (h ++ [(∅ : GoMap)]) hc
  refine ⟨rfl, ?_, ?_⟩
  · simp only [copyByRef, Heap.make]
    rw [h1, rangeCopy]
    congr 1
    simp [Heap.deref]
  · intro r hr
    simp only [copyByRef, Heap.make]
    rw [h2 r (Nat.ne_of_lt hr)]
    simp [Heap.deref, List.getElem?_append_left hr]

/-- C6: the mapping built by the read handler has every stored key with its
stored value and nothing else, whatever the order of the visit; the handler
encodes that mapping and leaves `data` and `requests` unchanged; the mapping is
a separate map object, so assigning or deleting through it leaves the store's
map as it was. -/
theorem getall_is_independent_copy (s : Server)
    (order : List (Sigma (fun _ : String => String))) (horder : order.Perm s.data.entries)
    (h : Heap) (dataRef : Nat) (hvalid : dataRef < h.length)
    (hstore : h.deref dataRef = s.data) :
    (∀ k, (rangeCopy order).lookup k = s.data.lookup k) ∧
      (rangeCopy order).entries.Perm s.data.entries ∧
      (getDataHandler s false).w.body = [Chunk.jsonMap (rangeCopy s.data.entries)] ∧
      (∀ encodeErr, (getDataHandler s encodeErr).srv = s) ∧
      (copyByRef h order).2 ≠ dataRef ∧
      (copyByRef h order).1.deref (copyByRef h order).2 = rangeCopy order ∧
      (copyByRef h order).1.deref dataRef = s.data ∧
      (∀ k v, ((copyByRef h order).1.assign (copyByRef h order).2 k v).deref dataRef
        = s.data) ∧
      (∀ k, ((copyByRef h order).1.deleteKey (copyByRef h order).2 k).deref dataRef
        = s.data) := by
  obtain ⟨hc, hcopy, hold⟩ := copyByRef_spec h order
  have hne : (copyByRef h order).2 ≠ dataRef := by
    rw [hc]; exact Nat.ne_of_gt hvalid
  have hkeep : (copyByRef h order).1.deref dataRef = s.data := by
    rw [hold dataRef hvalid, hstore]
  refine ⟨rangeCopy_perm s.data order horder, ?_, rfl, getDataHandler_srv s, hne, hcopy,
    hkeep, ?_, ?_⟩
  · apply List.lookup_ext (rangeCopy order).nodupKeys s.data.nodupKeys
    intro x y
    have := rangeCopy_perm s.data order horder x
    simp only [AList.lookup] at this
    rw [this]
  · intro k v
    rw [deref_assign_ne _ _ _ k v hne, hkeep]
  · intro k
    rw [deref_deleteKey_ne _ _ _ k hne, hkeep]

/-- Witness for C6: the store holding `a ↦ 1`, its map being object `0` of the heap. -/
theorem getall_is_independent_copy_witness :
    (sampleServer.data.entries.Perm sampleServer.data.entries ∧
        0 < sampleHeap.length ∧ sampleHeap.deref 0 = sampleServer.data) ∧
      (rangeCopy sampleServer.data.entries).lookup "a" = sampleServer.data.lookup "a" ∧
      ((copyByRef sampleHeap sampleServer.data.entries).1.assign
        (copyByRef sampleHeap sampleServer.data.entries).2 "a" "9").deref 0
          = sampleServer.data :=
  ⟨⟨List.Perm.refl _, by decide, rfl⟩,
    (getall_is_independent_copy sampleServer sampleServer.data.entries (List.Perm.refl _)
      sampleHeap 0 (by decide) rfl).1 "a",
    (getall_is_independent_copy sampleServer sampleServer.data.entries (List.Perm.refl _)
      sampleHeap 0 (by decide) rfl).2.2.2.2.2.2.2.1 "a" "9"⟩

/-! ## Invariant: keys are non-empty -/

theorem handle_keys_nonempty {w : IntSize} (s : Server) (r : Request)
    (hinv : ∀ k ∈ s.data, k ≠ "") : ∀ k ∈ (handle w s r).srv.data, k ≠ "" := by
  cases r with
  | postData decoded =>
    cases decoded with
    | none => simpa [handle, postDataHandler_srv] using hinv
    | some p =>
      by_cases h : p.Key = ""
      · simpa [handle, postDataHandler_srv, h] using hinv
      · intro k hk
        simp only [handle, postDataHandler_srv, h, if_false, AList.mem_insert] at hk
        rcases hk with rfl | hk
        · exact h
        · exact hinv k hk
  | getData encodeErr => simpa [handle, getDataHandler_srv] using hinv
  | deleteData key =>
    intro k hk
    simp only [handle, deleteDataHandler_srv] at hk
    split_ifs at hk
    · exact hinv k hk
    · exact hinv k hk
    · exact hinv k (AList.mem_erase.mp hk).2
  | stats encodeErr => simpa [handle, statsHandler_srv] using hinv

theorem serve_keys_nonempty {w : IntSize} (rs : List Request) (s : Server)
    (hinv : ∀ k ∈ s.data, k ≠ "") : ∀ k ∈ (serve w s rs).data, k ≠ "" := by
  induction rs generalizing s with
  | nil => simpa [serve] using hinv
  | cons r rs ih =>
    rw [serve]
    exact ih _ (handle_keys_nonempty s r hinv)

/-- C7: in every store state reachable from a new server by a finite sequence
of handler invocations with arbitrary inputs, every key present in `data` is a
non-empty string. -/
theorem reachable_keys_nonempty (w : IntSize) (rs : List Request) :
    ∀ k ∈ (serve w NewServer rs).data, k ≠ "" :=
  serve_keys_nonempty rs NewServer (fun k hk => absurd hk (AList.not_mem_empty k))

/-- Witness for C7: a run with an empty-key write, an accepted write, an
empty-key delete and an undecodable body leaves the single key `a`. -/
theorem reachable_keys_nonempty_witness :
    "a" ∈ (serve IntSize.bits64 NewServer sampleRequests).data ∧ "a" ≠ "" :=
  ⟨by decide, reachable_keys_nonempty IntSize.bits64 sampleRequests "a" (by decide)⟩

/-! ## Writes on distinct keys, in any order -/

theorem lastWritten_of_nodup (ws : List RequestPayload)
    (hdistinct : (ws.map (fun p => p.Key)).Nodup) (p : RequestPayload) (hp : p ∈ ws) :
    lastWritten ws p.Key = some p.Value := by
  induction ws with
  | nil => simp at hp
  | cons q qs ih =>
    rw [List.map_cons, List.nodup_cons] at hdistinct
    obtain ⟨hq, hqs⟩ := hdistinct
    rw [lastWritten_cons]
    rcases List.mem_cons.mp hp with rfl | hmem
    · have hnone : lastWritten qs p.Key = none := by
        cases hl : lastWritten qs p.Key with
        | none => rfl
        | some v =>
          exfalso
          obtain ⟨r, hr, hrk⟩ := (lastWritten_isSome qs p.Key).mp (by simp [hl])
          exact hq (List.mem_map.mpr ⟨r, hr, hrk⟩)
      simp [hnone]
    · simp [ih hqs hmem]

theorem lastWritten_perm (ws ws' : List RequestPayload) (hperm : ws'.Perm ws)
    (hdistinct : (ws.map (fun p => p.Key)).Nodup) (k : String) :
    lastWritten ws' k = lastWritten ws k := by
  have hdistinct' : (ws'.map (fun p => p.Key)).Nodup :=
    (List.Perm.nodup_iff (hperm.map _)).mpr hdistinct
  by_cases hex : ∃ p ∈ ws, p.Key = k
  · obtain ⟨p, hp, rfl⟩ := hex
    rw [lastWritten_of_nodup ws hdistinct p hp,
      lastWritten_of_nodup ws' hdistinct' p (hperm.mem_iff.mpr hp)]
  · have h1 : lastWritten ws k = none := by
      cases hl : lastWritten ws k with
      | none => rfl
      | some v => exact absurd ((lastWritten_isSome ws k).mp (by simp [hl])) hex
    have h2 : lastWritten ws' k = none := by
      cases hl : lastWritten ws' k with
      | none => rfl
      | some v =>
        obtain ⟨p, hp, hpk⟩ := (lastWritten_isSome ws' k).mp (by simp [hl])
        exact absurd ⟨p, hperm.mem_iff.mp hp, hpk⟩ hex
    rw [h1, h2]

/-- From a counter in range, a run of accepted writes that does not take the
counter past the largest `int` moves it by the number of writes. -/
theorem serve_postAll_requests {w : IntSize} (writes : List RequestPayload)
    (hkeys : ∀ p ∈ writes, p.Key ≠ "") (s : Server)
    (hmin : intMin w ≤ s.requests) (hmax : s.requests + (writes.length : Int) ≤ intMax w) :
    (serve w s (postAll writes)).requests = s.requests + (writes.length : Int) := by
  have hall := answers_postAll_stored w writes hkeys s
  have hN : (answers w s (postAll writes)).countP isStoredWrite = writes.length := by
    have hlen : (answers w s (postAll writes)).length = writes.length := by
      rw [answers_length, postAll, List.length_map]
    rw [← hlen]
    exact List.countP_eq_length.mpr (fun a ha => (hall a ha).1)
  have hM : (answers w s (postAll writes)).countP isDoneDelete = 0 := by
    apply List.countP_eq_zero.mpr
    intro a ha
    rw [(hall a ha).2]
    exact Bool.false_ne_true
  have hlen0 : (0 : Int) ≤ (writes.length : Int) := Int.natCast_nonneg _
  rw [serve_requests_wrap w (postAll writes) s hmin (by omega), hN, hM]
  simp only [Nat.cast_zero, add_zero]
  exact wrapInt_eq w _ (by omega) hmax

/-- C8: for K accepted writes on pairwise distinct non-empty keys, from any
store state and for every order in which they enter the critical section, a
read that follows builds a mapping holding each of the K keys with its own
value; the resulting store is the same mapping for every order and every write
is answered 201 (no update is lost).  When the counter is in range and K more
do not take it past the largest `int`, it has moved by K. -/
theorem distinct_writes_any_order (w : IntSize) (writes : List RequestPayload)
    (hdistinct : (writes.map (fun p => p.Key)).Nodup)
    (hkeys : ∀ p ∈ writes, p.Key ≠ "")
    (s : Server) (schedule : List RequestPayload) (hsched : schedule.Perm writes)
    (order : List (Sigma (fun _ : String => String)))
    (horder : order.Perm (serve w s (postAll schedule)).data.entries) :
    (∀ p ∈ writes, (rangeCopy order).lookup p.Key = some p.Value) ∧
      (∀ k, (serve w s (postAll schedule)).data.lookup k
        = (serve w s (postAll writes)).data.lookup k) ∧
      (∀ a ∈ answers w s (postAll schedule), a.2 = 201) ∧
      (intMin w ≤ s.requests → s.requests + (writes.length : Int) ≤ intMax w →
        (serve w s (postAll schedule)).requests = s.requests + (writes.length : Int)) := by
  have hkeys' : ∀ p ∈ schedule, p.Key ≠ "" := fun p hp => hkeys p (hsched.mem_iff.mp hp)
  refine ⟨?_, ?_, answers_postAll schedule hkeys' s, ?_⟩
  · intro p hp
    rw [rangeCopy_perm _ order horder, serve_postAll_lookup schedule hkeys',
      lastWritten_perm writes schedule hsched hdistinct,
      lastWritten_of_nodup writes hdistinct p hp]
  · intro k
    rw [serve_postAll_lookup schedule hkeys', serve_postAll_lookup writes hkeys,
      lastWritten_perm writes schedule hsched hdistinct]
  · intro hmin hmax
    rw [← hsched.length_eq] at hmax ⊢
    exact serve_postAll_requests schedule hkeys' s hmin hmax

/-- Witness for C8: the writes `a=1`, `b=2`, `c=3` entering in the order `c`,
`a`, `b` on a store that already holds `a ↦ 1`, on a 64-bit target. -/
theorem distinct_writes_any_order_witness :
    ((distinctWrites.map (fun p => p.Key)).Nodup ∧ (∀ p ∈ distinctWrites, p.Key ≠ "") ∧
        distinctWritesSchedule.Perm distinctWrites) ∧
      ∀ p ∈ distinctWrites,
        (rangeCopy (serve IntSize.bits64 sampleServer
          (postAll distinctWritesSchedule)).data.entries).lookup p.Key = some p.Value :=
  ⟨⟨by decide, by decide, by decide⟩,
    (distinct_writes_any_order IntSize.bits64 distinctWrites (by decide) (by decide)
      sampleServer distinctWritesSchedule (by decide) _ (List.Perm.refl _)).1⟩

/-! ## The background worker -/

theorem len_eq_keys (m : GoMap) : len m = m.keys.length := by
  simp [len, AList.keys, List.keys]

theorem workerSelect_srv (s : Server) (wk : Wake) : (workerSelect s wk).2.srv = s := by
  cases wk <;> rfl

/-- What one pass through the `select` prints and whether the loop goes on. -/
theorem workerSelect_out (s : Server) :
    (workerSelect s Wake.tick).1 = WorkerState.Running ∧
      (workerSelect s Wake.tick).2.out =
        ["[Worker Log] Requests: " ++ toString s.requests ++ " | Database Size: "
          ++ toString s.data.keys.length ++ "\n"] ∧
      (workerSelect s Wake.stop).1 = WorkerState.Stopped ∧
      (workerSelect s Wake.stop).2.out = ["Worker Stopped\n"] := by
  refine ⟨rfl, ?_, rfl, rfl⟩
  simp [workerSelect, Exec.start, Exec.lock, Exec.unlock, Exec.printf, len_eq_keys]

theorem step_wake_srv {w : IntSize} (σ : System) (wk : Wake) :
    (σ.step w (Action.wake wk)).srv = σ.srv := by
  cases hw : σ.worker <;> simp [System.step, hw, workerSelect_srv]

/-- The store after a run is the store after the requests of the run alone. -/
theorem run_srv {w : IntSize} (as : List Action) (σ : System) :
    (σ.run w as).srv = serve w σ.srv (requestsOf as) := by
  induction as generalizing σ with
  | nil => rfl
  | cons a as ih =>
    cases a with
    | request r => rw [System.run, ih, requestsOf, serve]; rfl
    | wake wk => rw [System.run, ih, requestsOf, step_wake_srv]

/-- Once stopped, the worker stays stopped and prints nothing more. -/
theorem run_stopped {w : IntSize} (as : List Action) (σ : System)
    (hσ : σ.worker = WorkerState.Stopped) :
    (σ.run w as).worker = WorkerState.Stopped ∧ (σ.run w as).workerOut = σ.workerOut := by
  induction as generalizing σ with
  | nil => exact ⟨hσ, rfl⟩
  | cons a as ih =>
    cases a with
    | request r =>
      rw [System.run]
      exact ih { σ with srv := (handle w σ.srv r).srv } hσ
    | wake wk =>
      have hstep : σ.step w (Action.wake wk) = σ := by simp [System.step, hσ]
      rw [System.run, hstep]
      exact ih σ hσ

theorem run_running {w : IntSize} (as : List Action) (σ : System)
    (hσ : σ.worker = WorkerState.Running) :
    (σ.run w as).workerOut = σ.workerOut ++ expectedWorkerOut w σ.srv as ∧
      (σ.run w as).worker =
        (if Wake.stop ∈ wakesOf as then WorkerState.Stopped else WorkerState.Running) := by
  induction as generalizing σ with
  | nil => simp [System.run, expectedWorkerOut, wakesOf, hσ]
  | cons a as ih =>
    cases a with
    | request r =>
      rw [System.run, expectedWorkerOut, wakesOf]
      exact ih { σ with srv := (handle w σ.srv r).srv } hσ
    | wake wk =>
      cases wk with
      | tick =>
        have hstep : σ.step w (Action.wake Wake.tick) =
            { srv := σ.srv, worker := WorkerState.Running,
              workerOut := σ.workerOut ++
                ["[Worker Log] Requests: " ++ toString σ.srv.requests ++ " | Database Size: "
                  ++ toString σ.srv.data.keys.length ++ "\n"] } := by
          simp [System.step, hσ, workerSelect, Exec.start, Exec.lock, Exec.unlock, Exec.printf,
            len_eq_keys]
        rw [System.run, hstep, expectedWorkerOut, wakesOf]
        obtain ⟨h1, h2⟩ := ih
          { srv := σ.srv, worker := WorkerState.Running,
            workerOut := σ.workerOut ++
              ["[Worker Log] Requests: " ++ toString σ.srv.requests ++ " | Database Size: "
                ++ toString σ.srv.data.keys.length ++ "\n"] } rfl
        refine ⟨?_, ?_⟩
        · rw [h1]; simp
        · rw [h2]; simp
      | stop =>
        have hstep : σ.step w (Action.wake Wake.stop) =
            { srv := σ.srv, worker := WorkerState.Stopped,
              workerOut := σ.workerOut ++ ["Worker Stopped\n"] } := by
          simp [System.step, hσ, workerSelect, Exec.start, Exec.printf]
        rw [System.run, hstep, expectedWorkerOut, wakesOf]
        obtain ⟨h1, h2⟩ := @run_stopped w as
          { srv := σ.srv, worker := WorkerState.Stopped,
            workerOut := σ.workerOut ++ ["Worker Stopped\n"] } rfl
        refine ⟨h2, ?_⟩
        rw [h1]; simp

theorem expectedWorkerOut_length {w : IntSize} (s : Server) (as : List Action) :
    (expectedWorkerOut w s as).length =
      ((wakesOf as).takeWhile (fun wk => decide (wk = Wake.tick))).length
        + (if Wake.stop ∈ wakesOf as then 1 else 0) := by
  induction as generalizing s with
  | nil => simp [expectedWorkerOut, wakesOf]
  | cons a as ih =>
    cases a with
    | request r => rw [expectedWorkerOut, wakesOf]; exact ih _
    | wake wk =>
      cases wk with
      | tick =>
        rw [expectedWorkerOut, wakesOf, List.length_cons, ih s]
        simp [List.takeWhile_cons]
        omega
      | stop => simp [expectedWorkerOut, wakesOf, List.takeWhile_cons]

/-- C9: the worker starts Running.  A tick prints the line
`[Worker Log] Requests: <requests> | Database Size: <number of keys of data>`
and keeps it Running; a stop prints `Worker Stopped` and makes it Stopped.
Over any run of the process (requests and wake-ups interleaved) it prints one
such log line for each tick before the first stop, built from the store as it
is at that tick, then `Worker Stopped` once at the first stop, and nothing
afterwards; it ends Stopped exactly when a stop was received, a stopped worker
ignores every wake-up, and no wake-up changes `data` or `requests`.  On the
store holding `a ↦ 1` with counter 1, the run tick, write `b=2`, tick, stop,
tick prints the two log lines `1 | 1` and `2 | 2` and `Worker Stopped`. -/
theorem worker_two_state_machine (w : IntSize) (s : Server) (as : List Action) :
    (System.boot s).worker = WorkerState.Running ∧
      (∀ srv : Server,
        (workerSelect srv Wake.tick).1 = WorkerState.Running ∧
          (workerSelect srv Wake.tick).2.out =
            ["[Worker Log] Requests: " ++ toString srv.requests ++ " | Database Size: "
              ++ toString srv.data.keys.length ++ "\n"] ∧
          (workerSelect srv Wake.stop).1 = WorkerState.Stopped ∧
          (workerSelect srv Wake.stop).2.out = ["Worker Stopped\n"]) ∧
      ((System.boot s).run w as).workerOut = expectedWorkerOut w s as ∧
      ((System.boot s).run w as).workerOut.length =
        ((wakesOf as).takeWhile (fun wk => decide (wk = Wake.tick))).length
          + (if Wake.stop ∈ wakesOf as then 1 else 0) ∧
      ((System.boot s).run w as).worker =
        (if Wake.stop ∈ wakesOf as then WorkerState.Stopped else WorkerState.Running) ∧
      ((System.boot s).run w as).srv = serve w s (requestsOf as) ∧
      (∀ (srv : Server) (out : List String) (wk : Wake),
        System.step w { srv := srv, worker := WorkerState.Stopped, workerOut := out }
            (Action.wake wk)
          = { srv := srv, worker := WorkerState.Stopped, workerOut := out }) ∧
      (∀ (srv : Server) (wk : Wake), (workerSelect srv wk).2.srv = srv) ∧
      ((System.boot sampleServer).run IntSize.bits64 sampleActions).workerOut =
        ["[Worker Log] Requests: 1 | Database Size: 1\n",
          "[Worker Log] Requests: 2 | Database Size: 2\n",
          "Worker Stopped\n"] := by
  obtain ⟨h1, h2⟩ := @run_running w as (System.boot s) rfl
  have hout : ((System.boot s).run w as).workerOut = expectedWorkerOut w s as := by
    rw [h1]; simp [System.boot]
  refine ⟨rfl, workerSelect_out, hout, ?_, h2, run_srv as (System.boot s), ?_,
    workerSelect_srv, ?_⟩
  · rw [hout, expectedWorkerOut_length]
  · intro srv out wk
    rfl
  · decide

/-! ## Output and the mutex -/

/-- The write handler prints and responds only outside its critical section. -/
theorem postDataHandler_output_unlocked {w : IntSize} (s : Server)
    (decoded : Option RequestPayload) :
    outputWhileLocked false (postDataHandler w s decoded).trace = false := by
  cases decoded with
  | none => rfl
  | some p =>
    by_cases h : p.Key = ""
    · simp [postDataHandler, h, Exec.httpError, Exec.setHeader, Exec.writeHeader, Exec.write,
        Exec.start, outputWhileLocked, Event.isOutput]
    · simp [postDataHandler, h, Exec.lock, Exec.assign, Exec.incRequests, Exec.unlock,
        Exec.printf, Exec.writeHeader, Exec.write, Exec.start, outputWhileLocked,
        Event.isOutput]

/-- The read handler encodes its copy only after unlocking. -/
theorem getDataHandler_output_unlocked (s : Server) (encodeErr : Bool) :
    outputWhileLocked false (getDataHandler s encodeErr).trace = false := by
  cases encodeErr <;> rfl

/-- The worker prints only after unlocking. -/
theorem workerSelect_output_unlocked (s : Server) (wk : Wake) :
    outputWhileLocked false (workerSelect s wk).2.trace = false := by
  cases wk <;> rfl

/-- The stats handler encodes its response while the mutex is still held. -/
theorem statsHandler_output_locked (s : Server) (encodeErr : Bool) :
    outputWhileLocked false (statsHandler s encodeErr).trace = true := by
  cases encodeErr <;> rfl

/-- Past the empty-key check, the delete handler responds while the mutex is
still held, on the 404 path and on the 200 path. -/
theorem deleteDataHandler_output_locked {w : IntSize} (s : Server) (key : String)
    (hkey : key ≠ "") :
    outputWhileLocked false (deleteDataHandler w s key).trace = true := by
  by_cases hk : (s.data.lookup key).isNone
  · simp [deleteDataHandler, hkey, Exec.httpError, Exec.setHeader, Exec.writeHeader,
      Exec.write, Exec.start, Exec.lock, Exec.unlock, hk, outputWhileLocked, Event.isOutput]
  · simp [deleteDataHandler, hkey, Exec.start, Exec.lock, Exec.unlock, hk, Exec.deleteKey,
      Exec.incRequests, Exec.printf, Exec.writeHeader, Exec.write, outputWhileLocked,
      Event.isOutput]

/-- C10 (failing inputs): on the store holding `a ↦ 1`, `DELETE /data/a`,
`DELETE /data/zz` and `GET /stats` each print or write the response between
`Lock` and the deferred `Unlock`, while `POST /data` and `GET /data` on the same
store do not. -/
theorem delete_and_stats_output_while_locked :
    outputWhileLocked false (deleteDataHandler IntSize.bits64 sampleServer "a").trace = true ∧
      outputWhileLocked false (deleteDataHandler IntSize.bits64 sampleServer "zz").trace = true ∧
      outputWhileLocked false (statsHandler sampleServer false).trace = true ∧
      outputWhileLocked false
        (postDataHandler IntSize.bits64 sampleServer
          (some { Key := "b", Value := "2" })).trace = false ∧
      outputWhileLocked false (getDataHandler sampleServer false).trace = false := by
  refine ⟨?_, ?_, ?_, ?_, ?_⟩ <;> decide

end BasicWebServer
